import Mathlib

/-!
Verification development for the go-multiconf / gonf configuration library.
Go strings are modelled as `List Char` (the sources only manipulate ASCII
here, where Go's byte indexing and rune iteration coincide), Go's
`map[string]interface{}` as an association list with unique keys (Go maps
cannot hold duplicate keys), and `interface{}` configuration values as the
inductive `JVal` below.
-/

namespace Gonf

/-- Go strings, modelled as character lists. -/
abbrev Str := List Char

/-- Shorthand turning a Lean string literal into the `Str` model. -/
def cs (s : String) : Str := s.toList

/-- Result of Go `strconv.ParseFloat`: a finite value (modelled as the exact
rational the decimal literal denotes; rounding to float64 is abstracted), an
infinity, or NaN. -/
inductive GoNum where
  | fin (q : Rat)
  | inf (neg : Bool)
  | nan
deriving DecidableEq

/-- Dynamic configuration values (`interface{}` holding the JSON-compatible
types the sources traffic in: strings, booleans, numbers and nested
`map[string]interface{}` objects). -/
inductive JVal where
  | str (s : Str)
  | bool (b : Bool)
  | num (n : GoNum)
  | obj (m : List (Str × JVal))

/-- Go `map[string]interface{}`, as an association list. -/
abbrev RawMap := List (Str × JVal)

/-- Whether a value is a nested map (a successful
`v.(map[string]interface{})` type assertion). -/
def JVal.isObj : JVal → Bool
  | .obj _ => true
  | _ => false

/-- Map read `m[k]` (first binding wins; Go maps have unique keys). -/
def lookupRaw : RawMap → Str → Option JVal
  | [], _ => none
  | (k', v') :: rest, k => if k' = k then some v' else lookupRaw rest k

/-- Map write `m[k] = v`: update in place if the key exists, else append. -/
def insertRaw : RawMap → Str → JVal → RawMap
  | [], k, v => [(k, v)]
  | (k', v') :: rest, k, v =>
      if k' = k then (k, v) :: rest else (k', v') :: insertRaw rest k v

/-- Inner loop of `Config.merge` (config.go:56-71, gonf.go:120-135,
multiconf.go:110-125, part_007:114-129): fold one source map `t` into the
accumulator `m`; when both the accumulated value and the incoming value are
nested maps the merge recurses, otherwise the incoming value replaces the
accumulated one.  The Go recursion `c.merge(m1, m2)` first copies `m1` into a
fresh map; since Go maps cannot hold duplicate keys that copy is the
identity, so the embedding recurses directly on `m1` and `m2`. -/
def mergeObj : RawMap → RawMap → RawMap
  | m, [] => m
  | m, (k, .obj m2) :: rest =>
      (match lookupRaw m k with
        | some (.obj m1) => mergeObj (insertRaw m k (.obj (mergeObj m1 m2))) rest
        | some (.str _) | some (.bool _) | some (.num _) | none =>
            mergeObj (insertRaw m k (.obj m2)) rest)
  | m, (k, .str s) :: rest => mergeObj (insertRaw m k (.str s)) rest
  | m, (k, .bool b) :: rest => mergeObj (insertRaw m k (.bool b)) rest
  | m, (k, .num n) :: rest => mergeObj (insertRaw m k (.num n)) rest
termination_by m t => sizeOf t
decreasing_by
  all_goals simp_all
  all_goals omega

/-- The variadic `merge(maps ...)` of the sources: start from an empty map
and fold every argument map in, later maps taking precedence. -/
def goMerge (maps : List RawMap) : RawMap := maps.foldl mergeObj []

/-- The merge performed by `Load` (config.go:397-416, part_007:410-425):
`c.to(c.parseFiles(...), c.parseEnvs(), opts)` hands the file map, then the
environment map, then the CLI option map to `merge`, in that order. -/
def loadMerged (fileM envM cliM : RawMap) : RawMap := goMerge [fileM, envM, cliM]

theorem lookupRaw_insertRaw (m : RawMap) (k : Str) (v : JVal) (k' : Str) :
    lookupRaw (insertRaw m k v) k' = if k = k' then some v else lookupRaw m k' := by
  induction m with
  | nil => simp [insertRaw, lookupRaw]
  | cons hd tl ih =>
      obtain ⟨k₀, v₀⟩ := hd
      by_cases h : k₀ = k
      · subst h
        simp only [insertRaw, if_pos rfl, lookupRaw]
        by_cases h' : k₀ = k' <;> simp [h']
      · simp only [insertRaw, if_neg h, lookupRaw]
        by_cases h' : k₀ = k'
        · have hne : ¬k = k' := fun e => h (h'.trans e.symm)
          simp [h', hne]
        · simp [h', ih]

theorem lookupRaw_eq_none_of_not_mem (m : RawMap) (k : Str)
    (h : k ∉ m.map Prod.fst) : lookupRaw m k = none := by
  induction m with
  | nil => rfl
  | cons hd tl ih =>
      obtain ⟨k₀, v₀⟩ := hd
      simp only [List.map_cons, List.mem_cons, not_or] at h
      simp only [lookupRaw, if_neg (fun hh : k₀ = k => h.1 hh.symm)]
      exact ih h.2

/-- The per-key value computed by one `merge` inner-loop step. -/
def mergeStep (m : RawMap) (k : Str) (v : JVal) : JVal :=
  match lookupRaw m k, v with
  | some (.obj m1), .obj m2 => .obj (mergeObj m1 m2)
  | _, _ => v

theorem mergeObj_cons (m : RawMap) (k : Str) (v : JVal) (rest : RawMap) :
    mergeObj m ((k, v) :: rest) = mergeObj (insertRaw m k (mergeStep m k v)) rest := by
  cases v with
  | obj m2 =>
      simp only [mergeObj, mergeStep]
      cases h : lookupRaw m k with
      | none => rfl
      | some w => cases w <;> rfl
  | str s =>
      simp only [mergeObj, mergeStep]
      cases h : lookupRaw m k with
      | none => rfl
      | some w => cases w <;> rfl
  | bool b =>
      simp only [mergeObj, mergeStep]
      cases h : lookupRaw m k with
      | none => rfl
      | some w => cases w <;> rfl
  | num n =>
      simp only [mergeObj, mergeStep]
      cases h : lookupRaw m k with
      | none => rfl
      | some w => cases w <;> rfl

/-- Key lookup in `mergeObj A B`, characterised per key: when both sides
hold nested maps the result is the recursive merge, otherwise the later
map `B` wins, and keys present only in `A` are untouched. -/
theorem lookupRaw_mergeObj (B A : RawMap) (k : Str)
    (hB : (B.map Prod.fst).Nodup) :
    lookupRaw (mergeObj A B) k =
      match lookupRaw A k, lookupRaw B k with
      | some (.obj m1), some (.obj m2) => some (.obj (mergeObj m1 m2))
      | _, some v => some v
      | a, none => a := by
  induction B generalizing A with
  | nil =>
      simp only [mergeObj, lookupRaw]
  | cons hd tl ih =>
      obtain ⟨k', v'⟩ := hd
      simp only [List.map_cons, List.nodup_cons] at hB
      obtain ⟨hk', htl⟩ := hB
      rw [mergeObj_cons, ih _ htl]
      by_cases hkk : k' = k
      · subst hkk
        have htlnone : lookupRaw tl k' = none := lookupRaw_eq_none_of_not_mem _ _ hk'
        rw [htlnone, lookupRaw_insertRaw]
        simp only [if_pos rfl, lookupRaw, if_pos rfl, mergeStep]
        cases hA : lookupRaw A k' with
        | none => cases v' <;> rfl
        | some w => cases w <;> cases v' <;> rfl
      · rw [lookupRaw_insertRaw, if_neg hkk]
        simp only [lookupRaw, if_neg hkk]

/-- Folding a map into an empty accumulator reproduces it key-for-key. -/
theorem lookupRaw_mergeObj_nil (A : RawMap) (k : Str)
    (hA : (A.map Prod.fst).Nodup) :
    lookupRaw (mergeObj [] A) k = lookupRaw A k := by
  rw [lookupRaw_mergeObj A [] k hA]
  cases lookupRaw A k with
  | none => rfl
  | some v => cases v <;> rfl

/-- C2: for every pair of merged maps and every key, if both values are
nested maps the merge recurses on them; otherwise the later map's value
fully replaces the earlier one, and keys present in only one input appear
unchanged in the result. -/
theorem c2_merge_per_key (A B : RawMap) (k : Str)
    (hA : (A.map Prod.fst).Nodup) (hB : (B.map Prod.fst).Nodup) :
    lookupRaw (goMerge [A, B]) k =
      match lookupRaw A k, lookupRaw B k with
      | some (.obj m1), some (.obj m2) => some (.obj (mergeObj m1 m2))
      | _, some v => some v
      | a, none => a := by
  show lookupRaw (mergeObj (mergeObj [] A) B) k = _
  rw [lookupRaw_mergeObj B _ k hB, lookupRaw_mergeObj_nil A k hA]

/-- Concrete merge input: a nested map plus a scalar sibling. -/
def mapA : RawMap :=
  [(cs "a", .obj [(cs "x", .str (cs "1")), (cs "y", .str (cs "2"))]),
   (cs "b", .str (cs "f"))]

/-- Concrete merge input overriding one nested key of `mapA`. -/
def mapB : RawMap := [(cs "a", .obj [(cs "y", .str (cs "3"))])]

theorem c2_merge_per_key_witness :
    ((mapA.map Prod.fst).Nodup ∧ (mapB.map Prod.fst).Nodup) ∧
      lookupRaw (goMerge [mapA, mapB]) (cs "a") =
        match lookupRaw mapA (cs "a"), lookupRaw mapB (cs "a") with
        | some (.obj m1), some (.obj m2) => some (.obj (mergeObj m1 m2))
        | _, some v => some v
        | a, none => a :=
  ⟨⟨by decide, by decide⟩, c2_merge_per_key mapA mapB (cs "a") (by decide) (by decide)⟩

/-- C1: `Load` merges as `merge(fileMap, envMap, cliMap)`, so per key the
CLI source overrides the environment source, which overrides the file
source (for the non-recursive cases the later scalar value wins outright). -/
theorem c1_load_precedence (f e c : RawMap) (k : Str)
    (hf : (f.map Prod.fst).Nodup) (he : (e.map Prod.fst).Nodup)
    (hc : (c.map Prod.fst).Nodup) :
    (∀ v, lookupRaw c k = some v → v.isObj = false →
        lookupRaw (loadMerged f e c) k = some v) ∧
    (∀ v, lookupRaw c k = none → lookupRaw e k = some v → v.isObj = false →
        lookupRaw (loadMerged f e c) k = some v) ∧
    (lookupRaw c k = none → lookupRaw e k = none →
        lookupRaw (loadMerged f e c) k = lookupRaw f k) := by
  have hstep : lookupRaw (loadMerged f e c) k =
      match lookupRaw (mergeObj (mergeObj [] f) e) k, lookupRaw c k with
      | some (.obj m1), some (.obj m2) => some (.obj (mergeObj m1 m2))
      | _, some v => some v
      | a, none => a := by
    show lookupRaw (mergeObj (mergeObj (mergeObj [] f) e) c) k = _
    rw [lookupRaw_mergeObj c _ k hc]
  refine ⟨?_, ?_, ?_⟩
  · intro v hcv hobj
    rw [hstep, hcv]
    cases v with
    | obj m2 => simp [JVal.isObj] at hobj
    | str s => cases lookupRaw (mergeObj (mergeObj [] f) e) k with
        | none => rfl
        | some w => cases w <;> rfl
    | bool b => cases lookupRaw (mergeObj (mergeObj [] f) e) k with
        | none => rfl
        | some w => cases w <;> rfl
    | num n => cases lookupRaw (mergeObj (mergeObj [] f) e) k with
        | none => rfl
        | some w => cases w <;> rfl
  · intro v hcv hev hobj
    rw [hstep, hcv, lookupRaw_mergeObj e _ k he, hev,
        lookupRaw_mergeObj_nil f k hf]
    cases v with
    | obj m2 => simp [JVal.isObj] at hobj
    | str s => cases lookupRaw f k with
        | none => rfl
        | some w => cases w <;> rfl
    | bool b => cases lookupRaw f k with
        | none => rfl
        | some w => cases w <;> rfl
    | num n => cases lookupRaw f k with
        | none => rfl
        | some w => cases w <;> rfl
  · intro hcv hev
    rw [hstep, hcv, lookupRaw_mergeObj e _ k he, hev,
        lookupRaw_mergeObj_nil f k hf]
    cases lookupRaw f k with
    | none => rfl
    | some w => cases w <;> rfl

/-- File-source map supplying `key = "1"`. -/
def fileMapEx : RawMap := [(cs "key", .str (cs "1"))]

/-- Environment-source map supplying `key = "2"`. -/
def envMapEx : RawMap := [(cs "key", .str (cs "2"))]

/-- CLI-source map supplying `key = "3"`. -/
def cliMapEx : RawMap := [(cs "key", .str (cs "3"))]

theorem c1_load_precedence_witness :
    lookupRaw cliMapEx (cs "key") = some (.str (cs "3")) ∧
      lookupRaw (loadMerged fileMapEx envMapEx cliMapEx) (cs "key") =
        some (.str (cs "3")) :=
  ⟨rfl,
    (c1_load_precedence fileMapEx envMapEx cliMapEx (cs "key")
        (by decide) (by decide) (by decide)).1 (.str (cs "3")) rfl rfl⟩

/-- Go `strings.Split(key, ".")`: split on every dot, keeping empty
segments (`Split` on an empty string yields one empty segment). -/
def splitOnDot : Str → List Str
  | [] => [[]]
  | c :: rest =>
      if c = '.' then [] :: splitOnDot rest
      else
        match splitOnDot rest with
        | [] => [[c]]
        | r :: rs => (c :: r) :: rs

/-- Loop body of `Config.set` (config.go:133-151): walk the dot-separated
key segments, writing the value at the final segment (or before an empty
next segment, the config.go quirk) and otherwise descending into a nested
map, creating or replacing non-map intermediate values with fresh maps.
Go mutates the nested maps through aliasing; the embedding rebuilds the
path functionally, which is observationally the same. -/
def setKeysGo : RawMap → List Str → JVal → RawMap
  | m, [], _ => m
  | m, k :: rest, v =>
      if rest = [] ∨ rest.head? = some [] then setKeysGo (insertRaw m k v) rest v
      else
        let sub :=
          match lookupRaw m k with
          | some (.obj mm) => mm
          | _ => []
        insertRaw m k (.obj (setKeysGo sub rest v))

/-- `Config.set` (config.go:133-151): dotted-key expansion of one write. -/
def setGo (m : RawMap) (key : Str) (v : JVal) : RawMap :=
  setKeysGo m (splitOnDot key) v

/-- One registered setting (gonf.go:79-84). -/
structure Setting where
  name : Str
  description : Str
  env : Str
  options : List Str

/-- `Config.parseEnvs` (config.go:153-164): for every setting with a
non-empty environment variable whose lookup is non-empty, write the raw
string into the map under the setting's dotted name. -/
def parseEnvsGo (settings : List Setting) (getenv : Str → Str) : RawMap :=
  settings.foldl
    (fun vars s =>
      if s.env = [] then vars
      else if getenv s.env = [] then vars
      else setGo vars s.name (.str (getenv s.env)))
    []

theorem splitOnDot_append (a r : Str) (ha : '.' ∉ a) :
    splitOnDot (a ++ '.' :: r) = a :: splitOnDot r := by
  induction a with
  | nil => simp [splitOnDot]
  | cons c a' ih =>
      simp only [List.mem_cons, not_or] at ha
      simp only [List.cons_append, splitOnDot, List.append_eq,
        if_neg (fun h : c = '.' => ha.1 h.symm)]
      rw [ih ha.2]

theorem splitOnDot_single (a : Str) (ha : '.' ∉ a) : splitOnDot a = [a] := by
  induction a with
  | nil => rfl
  | cons c a' ih =>
      simp only [List.mem_cons, not_or] at ha
      simp only [splitOnDot, if_neg (fun h : c = '.' => ha.1 h.symm)]
      rw [ih ha.2]

/-- C3: a value supplied for a setting registered under dotted name
`a.b.c` is expanded segment by segment, both by `set` itself and through
`parseEnvs` for an environment-supplied value. -/
theorem c3_dotted_expansion (a b c : Str) (v : JVal)
    (ha : '.' ∉ a) (hb : '.' ∉ b) (hc : '.' ∉ c)
    (hbne : b ≠ []) (hcne : c ≠ []) :
    setGo [] (a ++ ('.' :: (b ++ ('.' :: c)))) v =
        [(a, .obj [(b, .obj [(c, v)])])] ∧
    ∀ (d envName : Str) (opts : List Str) (getenv : Str → Str),
      envName ≠ [] → getenv envName ≠ [] →
      parseEnvsGo [⟨a ++ ('.' :: (b ++ ('.' :: c))), d, envName, opts⟩] getenv =
        [(a, .obj [(b, .obj [(c, .str (getenv envName))])])] := by
  have hsplit : splitOnDot (a ++ ('.' :: (b ++ ('.' :: c)))) = [a, b, c] := by
    rw [splitOnDot_append a _ ha, splitOnDot_append b _ hb, splitOnDot_single c hc]
  have hset : ∀ w : JVal, setGo [] (a ++ ('.' :: (b ++ ('.' :: c)))) w =
      [(a, .obj [(b, .obj [(c, w)])])] := by
    intro w
    rw [setGo, hsplit]
    simp [setKeysGo, insertRaw, lookupRaw, hbne, hcne]
  refine ⟨hset v, ?_⟩
  intro d envName opts getenv hen hval
  simp only [parseEnvsGo, List.foldl, if_neg hen, if_neg hval]
  exact hset (.str (getenv envName))

theorem c3_dotted_expansion_witness :
    ('.' ∉ cs "par") ∧
      setGo [] (cs "par" ++ ('.' :: (cs "mid" ++ ('.' :: cs "leaf"))))
          (.str (cs "7")) =
        [(cs "par", .obj [(cs "mid", .obj [(cs "leaf", .str (cs "7"))])])] :=
  ⟨by decide,
    (c3_dotted_expansion (cs "par") (cs "mid") (cs "leaf") (.str (cs "7"))
        (by decide) (by decide) (by decide) (by decide) (by decide)).1⟩

/-- Registration errors of part_007 (part_007:19-25). -/
inductive AddErr where
  | emptyName
  | noEnvOptions
  | badNameSyntax
  | conflictingAdd
deriving DecidableEq

/-- Go `strings.Contains(name, "..")`. -/
def containsDotDot : Str → Bool
  | '.' :: '.' :: _ => true
  | _ :: rest => containsDotDot rest
  | [] => false

/-- Go `strings.HasPrefix(name, ".")`. -/
def startsWithDot : Str → Bool
  | '.' :: _ => true
  | _ => false

/-- Go `strings.HasSuffix(name, ".")`. -/
def endsWithDot (s : Str) : Bool :=
  match s.getLast? with
  | some '.' => true
  | _ => false

/-- `Config.Add` of part_007 (part_007:331-353): validate the name, the
presence of an environment variable or at least one option, the dotted
syntax, and uniqueness; on success append exactly one setting, otherwise
return the error with the registry untouched. -/
def add007 (settings : List Setting) (name description env : Str)
    (options : List Str) : Option AddErr × List Setting :=
  if name = [] then (some .emptyName, settings)
  else if env = [] ∧ options = [] then (some .noEnvOptions, settings)
  else if name = ['.'] ∨ startsWithDot name = true ∨ endsWithDot name = true ∨
      containsDotDot name = true then (some .badNameSyntax, settings)
  else if settings.any (fun s => s.name == name) then (some .conflictingAdd, settings)
  else (none, settings ++ [⟨name, description, env, options⟩])

/-- C9: `Add` reports registration errors synchronously (empty name,
neither env nor flags, malformed dot segments, duplicate name), leaving the
registry unchanged in every error case, and a valid `Add` appends exactly
one setting. -/
theorem c9_add_validation (settings : List Setting) (name d env : Str)
    (options : List Str) :
    ((add007 settings name d env options).1.isSome →
        (add007 settings name d env options).2 = settings) ∧
    ((add007 settings name d env options).1 = none →
        (add007 settings name d env options).2 =
          settings ++ [⟨name, d, env, options⟩]) ∧
    ((add007 settings name d env options).1 = none ↔
        name ≠ [] ∧ (env ≠ [] ∨ options ≠ []) ∧
        name ≠ ['.'] ∧ startsWithDot name = false ∧ endsWithDot name = false ∧
        containsDotDot name = false ∧ ∀ s ∈ settings, s.name ≠ name) := by
  by_cases h1 : name = []
  · simp only [add007, if_pos h1]
    exact ⟨fun _ => trivial, fun hc => Option.noConfusion hc,
      ⟨fun hc => Option.noConfusion hc, fun hr => absurd h1 hr.1⟩⟩
  · by_cases h2 : env = [] ∧ options = []
    · simp only [add007, if_neg h1, if_pos h2]
      refine ⟨fun _ => trivial, fun hc => Option.noConfusion hc,
        ⟨fun hc => Option.noConfusion hc, fun hr => ?_⟩⟩
      rcases hr.2.1 with he | ho
      · exact absurd h2.1 he
      · exact absurd h2.2 ho
    · by_cases h3 : name = ['.'] ∨ startsWithDot name = true ∨
          endsWithDot name = true ∨ containsDotDot name = true
      · simp only [add007, if_neg h1, if_neg h2, if_pos h3]
        refine ⟨fun _ => trivial, fun hc => Option.noConfusion hc,
          ⟨fun hc => Option.noConfusion hc, fun hr => ?_⟩⟩
        rcases h3 with h3 | h3 | h3 | h3
        · exact absurd h3 hr.2.2.1
        · rw [hr.2.2.2.1] at h3
          exact Bool.noConfusion h3
        · rw [hr.2.2.2.2.1] at h3
          exact Bool.noConfusion h3
        · rw [hr.2.2.2.2.2.1] at h3
          exact Bool.noConfusion h3
      · by_cases h4 : settings.any (fun s => s.name == name) = true
        · simp only [add007, if_neg h1, if_neg h2, if_neg h3, if_pos h4]
          refine ⟨fun _ => trivial, fun hc => Option.noConfusion hc,
            ⟨fun hc => Option.noConfusion hc, fun hr => ?_⟩⟩
          simp only [List.any_eq_true, beq_iff_eq] at h4
          obtain ⟨s, hs, hsn⟩ := h4
          exact absurd hsn (hr.2.2.2.2.2.2 s hs)
        · simp only [add007, if_neg h1, if_neg h2, if_neg h3, if_neg h4]
          push_neg at h3
          refine ⟨fun hsome => Bool.noConfusion hsome, fun _ => trivial, ?_⟩
          refine ⟨fun _ => ⟨h1, not_and_or.mp h2, h3.1, ?_, ?_, ?_, ?_⟩,
            fun _ => trivial⟩
          · simpa using h3.2.1
          · simpa using h3.2.2.1
          · simpa using h3.2.2.2
          · intro s hs hsn
            exact h4 (List.any_eq_true.mpr ⟨s, hs, beq_iff_eq.mpr hsn⟩)

theorem c9_add_validation_witness :
    (add007 [] (cs "host") (cs "the host") (cs "APP_HOST") []).1 = none ∧
      (add007 [] (cs "host") (cs "the host") (cs "APP_HOST") []).2 =
        [⟨cs "host", cs "the host", cs "APP_HOST", []⟩] :=
  ⟨by decide,
    (c9_add_validation [] (cs "host") (cs "the host") (cs "APP_HOST") []).2.1
      (by decide)⟩

/-- Segment walk of part_007's `set` (part_007:147-159): the final segment
writes the value; an intermediate segment descends after creating an empty
map when the key is absent, but an existing non-map value makes the
unchecked type assertion `cursor[k].(map[string]interface{})` panic,
modelled as `none`. -/
def setKeys007 : RawMap → List Str → JVal → Option RawMap
  | m, [], _ => some m
  | m, [k], v => some (insertRaw m k v)
  | m, k :: rest, v =>
      match lookupRaw m k with
      | some (.obj mm) => (setKeys007 mm rest v).map (fun sub => insertRaw m k (.obj sub))
      | some (.str _) | some (.bool _) | some (.num _) => none
      | none => (setKeys007 [] rest v).map (fun sub => insertRaw m k (.obj sub))

/-- `Config.set` of part_007, with `none` marking the run-time panic. -/
def set007 (m : RawMap) (key : Str) (v : JVal) : Option RawMap :=
  setKeys007 m (splitOnDot key) v

/-- `Config.parseEnvs` of part_007 (part_007:161-172), propagating the
panic of `set`. -/
def parseEnvs007 (settings : List Setting) (getenv : Str → Str) : Option RawMap :=
  settings.foldl
    (fun acc s =>
      acc.bind fun vars =>
        if s.env = [] then some vars
        else if getenv s.env = [] then some vars
        else set007 vars s.name (.str (getenv s.env)))
    (some [])

/-- Registry obtained from `Add("a", ..., "APP_A")` then
`Add("a.b", ..., "APP_AB")`, both accepted by the part_007 validation. -/
def settingsDemo : List Setting :=
  [⟨cs "a", cs "first", cs "APP_A", []⟩,
   ⟨cs "a.b", cs "second", cs "APP_AB", []⟩]

/-- Environment supplying values for both registered variables. -/
def envDemo : Str → Str := fun e =>
  if e = cs "APP_A" then cs "1"
  else if e = cs "APP_AB" then cs "2"
  else []

/-- C10 evidence: both registrations are accepted by `Add`, yet
`parseEnvs` panics (returns `none` in the model) because writing `a.b`
type-asserts the previously written scalar value of `a` as a map. -/
theorem c10_set_panic :
    (add007 [] (cs "a") (cs "first") (cs "APP_A") []).1 = none ∧
    (add007 (add007 [] (cs "a") (cs "first") (cs "APP_A") []).2
        (cs "a.b") (cs "second") (cs "APP_AB") []).1 = none ∧
    (add007 (add007 [] (cs "a") (cs "first") (cs "APP_A") []).2
        (cs "a.b") (cs "second") (cs "APP_AB") []).2 = settingsDemo ∧
    parseEnvs007 settingsDemo envDemo = none := by
  refine ⟨rfl, rfl, rfl, ?_⟩
  rfl

/-- External world seen by `readfile` (config.go:256-285): the stat result
(the modification time on success) and the combined outcome of reading the
file and JSON-parsing its comment-stripped bytes.  The read/parse data
plane is collapsed because the unchanged-mtime path returns before ever
touching it. -/
structure FileSys where
  statMtime : Option Nat
  contents : Except Unit RawMap

/-- Controller state relevant to `Reload`: the resolved file path, the
stored last-read modification time, and the caller's target (abstracted as
a map of applied fields). -/
structure ConfState where
  configFile : Str
  configModified : Nat
  target : RawMap

/-- `Config.readfile` (config.go:256-285): short-circuit with an empty map
when the on-disk modification time equals the stored one; otherwise read
and parse, recording the new modification time only on success. -/
def readfileGo (c : ConfState) (fs : FileSys) : RawMap × Option Unit × ConfState :=
  let modTime := match fs.statMtime with | some t => t | none => c.configModified
  if fs.statMtime.isSome ∧ modTime = c.configModified then ([], none, c)
  else
    match fs.contents with
    | .error e => ([], some e, c)
    | .ok vars => (vars, none, { c with configModified := modTime })

/-- `Config.Reload` (config.go:323-332): no-op without a config file; else
re-read, and only when the read succeeded with a non-empty map apply it to
the target (`c.to(v)`, abstracted by `apply`) and invoke the target's
`Callback`; the returned boolean records whether `Callback` ran. -/
def reloadGo (apply : RawMap → RawMap → RawMap) (c : ConfState) (fs : FileSys) :
    ConfState × Bool :=
  if c.configFile = [] then (c, false)
  else
    match readfileGo c fs with
    | (v, err, c') =>
        if err = none ∧ v.isEmpty = false then
          ({ c' with target := apply c'.target v }, true)
        else (c', false)

/-- C8: when the on-disk modification time equals the stored one, `Reload`
returns with the whole controller state (in particular every field of the
target) unchanged and without invoking the target's `Callback`. -/
theorem c8_reload_unchanged (apply : RawMap → RawMap → RawMap)
    (c : ConfState) (fs : FileSys)
    (h : fs.statMtime = some c.configModified) :
    reloadGo apply c fs = (c, false) := by
  unfold reloadGo readfileGo
  rw [h]
  simp

/-- Concrete controller state for the C8 witness. -/
def confStateDemo : ConfState := ⟨cs "app.json", 5, [(cs "x", .str (cs "1"))]⟩

/-- File system whose stat time matches the stored modification time. -/
def fsDemo : FileSys := ⟨some 5, .ok [(cs "x", .str (cs "2"))]⟩

theorem c8_reload_unchanged_witness :
    fsDemo.statMtime = some confStateDemo.configModified ∧
      reloadGo mergeObj confStateDemo fsDemo = (confStateDemo, false) :=
  ⟨rfl, c8_reload_unchanged mergeObj confStateDemo fsDemo rfl⟩

/-- `setting.Match` (gonf.go:97-106): scan the registered option spellings
for the input; an exact hit is a non-greedy match, a hit on the spelling
with a trailing colon is a greedy match. -/
def matchOpt : List Str → Str → Bool × Bool
  | [], _ => (false, false)
  | o :: rest, inp =>
      if o = inp then (true, false)
      else if o = inp ++ [':'] then (true, true)
      else matchOpt rest inp

/-- Go `strings.TrimPrefix(arg, "-")`. -/
def trimOneDash : Str → Str
  | '-' :: rest => rest
  | s => s

/-- Go `strings.HasPrefix(arg, "-")`. -/
def startsWithDash : Str → Bool
  | '-' :: _ => true
  | _ => false

/-- Go `strings.HasPrefix(arg, "--")`. -/
def startsWithDashDash : Str → Bool
  | '-' :: '-' :: _ => true
  | _ => false

/-- Go `strings.SplitN(arg, "=", 2)`: text before the first `=`, and the
remainder after it when one exists. -/
def splitEqOnce : Str → Str × Option Str
  | [] => ([], none)
  | '=' :: rest => ([], some rest)
  | c :: rest =>
      match splitEqOnce rest with
      | (a, b) => (c :: a, b)

/-- State threaded through the `parseShort` loops: the argument index `i`
(which the Go code advances when it consumes the next token), the value map,
and whether the `return` of the greedy case has fired. -/
structure ShortState where
  i : Nat
  m : RawMap
  stop : Bool

/-- Body of the inner settings loop of `Config.parseShort`
(config.go:209-229) for cluster character `cl` at byte index `ci`: consume
the next token when the character ends the cluster and the next token is
usable, capture the remaining suffix and return when the flag is greedy,
otherwise record boolean true. -/
def parseShortChar (args : List Str) (a : Str) (ci : Nat) (cl : Char)
    (st : ShortState) (s : Setting) : ShortState :=
  if st.stop then st
  else
    match matchOpt s.options ('-' :: [cl]) with
    | (y, greedy) =>
      if y = false then st
      else if ci + 1 ≥ a.length ∧ st.i + 1 < args.length ∧
          args.getD (st.i + 1) [] ≠ cs "--" ∧
          (startsWithDash (args.getD (st.i + 1) []) = false ∨ greedy = true) then
        { i := st.i + 1, m := setGo st.m s.name (.str (args.getD (st.i + 1) [])),
          stop := st.stop }
      else if ci + 1 < a.length ∧ greedy = true then
        { i := st.i, m := setGo st.m s.name (.str (a.drop (ci + 1))), stop := true }
      else
        { i := st.i, m := setGo st.m s.name (.bool true), stop := st.stop }

/-- `Config.parseShort` (config.go:209-229): strip one dash, scan the
cluster characters left to right, and for each run the settings loop. -/
def parseShortGo (settings : List Setting) (args : List Str) (i : Nat)
    (m : RawMap) : Nat × RawMap :=
  let a := trimOneDash (args.getD i [])
  let final := a.enum.foldl
    (fun st p => settings.foldl (parseShortChar args a p.1 p.2) st)
    ⟨i, m, false⟩
  (final.i, final.m)

/-- `Config.parseLong` (config.go:190-207): split on the first `=`, then
for every matching setting either consume the next token, take the text
after `=` when non-empty, or record boolean true. -/
def parseLongGo (settings : List Setting) (args : List Str) (i : Nat)
    (m : RawMap) : Nat × RawMap :=
  let argv := splitEqOnce (args.getD i [])
  settings.foldl
    (fun (st : Nat × RawMap) s =>
      match matchOpt s.options argv.1 with
      | (y, greedy) =>
        if y = false then st
        else if argv.2 = none ∧ st.1 + 1 < args.length ∧
            args.getD (st.1 + 1) [] ≠ cs "--" ∧
            (startsWithDash (args.getD (st.1 + 1) []) = false ∨ greedy = true) then
          (st.1 + 1, setGo st.2 s.name (.str (args.getD (st.1 + 1) [])))
        else
          match argv.2 with
          | some val =>
              if val ≠ [] then (st.1, setGo st.2 s.name (.str val))
              else (st.1, setGo st.2 s.name (.bool true))
          | none => (st.1, setGo st.2 s.name (.bool true)))
    (i, m)

/-- Main loop of `Config.parseOptions` (config.go:231-249), with `fuel`
bounding the remaining iterations: the index grows by at least one per
iteration, so `args.length + 1` fuel is never exhausted on a real run.
The boolean result records the `exit(0)` of the help path, which config.go
takes only when a description is set (config.go:166-188). -/
def parseOptsAux (settings : List Setting) (desc : Str) (args : List Str) :
    Nat → Nat → RawMap → RawMap × Bool
  | 0, _, m => (m, false)
  | fuel + 1, i, m =>
    if i < args.length then
      let arg := args.getD i []
      if arg = cs "--" then (m, false)
      else if arg = cs "help" ∨ arg = cs "-h" ∨ arg = cs "--help" then
        if desc = [] then
          if startsWithDashDash arg = true then
            let p := parseLongGo settings args i m
            parseOptsAux settings desc args fuel (p.1 + 1) p.2
          else
            let p := parseShortGo settings args i m
            parseOptsAux settings desc args fuel (p.1 + 1) p.2
        else (m, true)
      else if arg.length = 1 ∨ startsWithDash arg = false then
        parseOptsAux settings desc args fuel (i + 1) m
      else if startsWithDashDash arg = true then
        let p := parseLongGo settings args i m
        parseOptsAux settings desc args fuel (p.1 + 1) p.2
      else
        let p := parseShortGo settings args i m
        parseOptsAux settings desc args fuel (p.1 + 1) p.2
    else (m, false)

/-- `Config.parseOptions` (config.go:231-249) over a full argument vector. -/
def parseOptionsGo (settings : List Setting) (desc : Str) (args : List Str) :
    RawMap × Bool :=
  parseOptsAux settings desc args (args.length + 1) 0 []

/-- C5: with `greedy` registered under the greedy short spelling `-g:`,
parsing the argument vector `["-gf2"]` yields exactly the map
`greedy = "f2"`: the token remainder is captured, the cluster scan ends,
and no other entries are produced. -/
theorem c5_greedy_short_capture :
    parseOptionsGo [⟨cs "greedy", cs "a greedy flag", [], [cs "-g:"]⟩] []
        [cs "-gf2"] =
      ([(cs "greedy", .str (cs "f2"))], false) := by
  rfl

/-- One registered short flag of the multiconf.go variant: the `parse`
record (multiconf.go:85-89) with the key of its linked option inlined. -/
structure MCParse where
  greedy : Bool
  flag : Str
  key : Str

/-- State of the multiconf.go short-cluster scan (multiconf.go:245-279):
the value map, the outer `skip` flag (consume next token), the `cskip`
flag set by a greedy capture, and whether a `break` has ended the current
inner settings loop. -/
structure MCState where
  m : RawMap
  skip : Bool
  cskip : Bool
  brk : Bool

/-- Segment walk of the multiconf.go `set` (multiconf.go:161-179): like
config.go's but without the empty-next-segment special case; the type
switch safely replaces non-map intermediate values. -/
def setKeysMC : RawMap → List Str → JVal → RawMap
  | m, [], _ => m
  | m, [k], v => insertRaw m k v
  | m, k :: rest, v =>
      let sub :=
        match lookupRaw m k with
        | some (.obj mm) => mm
        | _ => []
      insertRaw m k (.obj (setKeysMC sub rest v))

/-- `Gonf.set` of multiconf.go. -/
def mcSet (m : RawMap) (key : Str) (v : JVal) : RawMap :=
  setKeysMC m (splitOnDot key) v

/-- Body executed by multiconf.go's short-flag scan when cluster character
at byte index `idc` equals `short.Flag` (multiconf.go:250-272): the final
character consumes the next usable token (direct `vars[key] = true`
otherwise); a non-final match first captures the remaining suffix as the
value, then overwrites it with boolean true when the following character
is itself a registered short flag; a greedy non-final match keeps the
suffix and breaks out with `cskip` set. -/
def mcShortBody (shorts : List MCParse) (s : Str) (args : List Str)
    (idx idc : Nat) (short : MCParse) (st : MCState) : MCState :=
  if idc = s.length - 1 then
    if idx + 1 < args.length ∧ args.getD (idx + 1) [] ≠ cs "--" ∧
        (startsWithDash (args.getD (idx + 1) []) = false ∨ short.greedy = true) then
      { st with
          m := mcSet st.m short.key (.str (args.getD (idx + 1) []))
          skip := true
          brk := true }
    else
      { st with m := insertRaw st.m short.key (.bool true) }
  else
    let m1 := mcSet st.m short.key (.str (s.drop (idc + 1)))
    if short.greedy = false then
      if shorts.any (fun si => si.flag == [s.getD (idc + 1) ' ']) then
        { st with m := mcSet m1 short.key (.bool true) }
      else { st with m := m1 }
    else
      { st with m := m1, cskip := true, brk := true }

/-- One iteration of the inner `for _, short := range self.short` loop,
including the trailing `if cskip { cskip = false; break }` check that runs
unless the body itself broke out. -/
def mcShortStep (shorts : List MCParse) (s : Str) (args : List Str)
    (idx idc : Nat) (c : Char) (st : MCState) (short : MCParse) : MCState :=
  if st.brk then st
  else
    let st1 := if short.flag == [c] then mcShortBody shorts s args idx idc short st else st
    if st1.brk then st1
    else if st1.cskip then { st1 with cskip := false, brk := true }
    else st1

/-- One cluster character: reset the per-character `break` flag and run the
settings loop. -/
def mcCharStep (shorts : List MCParse) (s : Str) (args : List Str) (idx : Nat)
    (st : MCState) (p : Nat × Char) : MCState :=
  shorts.foldl (mcShortStep shorts s args idx p.1 p.2) { st with brk := false }

/-- The full short-token branch of `Gonf.parseOptions`
(multiconf.go:245-279) for the token at `idx`. -/
def mcShortToken (shorts : List MCParse) (args : List Str) (idx : Nat)
    (m : RawMap) (skip : Bool) : MCState :=
  let s := trimOneDash (args.getD idx [])
  s.enum.foldl (mcCharStep shorts s args idx) ⟨m, skip, false, false⟩

/-- Registered non-greedy short flags `-a` and `-b` for the C6 scans. -/
def mcShortsDemo : List MCParse :=
  [⟨false, cs "a", cs "alpha"⟩, ⟨false, cs "b", cs "beta"⟩]

/-- C6: a matched non-final non-greedy cluster character captures the
remaining suffix as its value when the following character is not a
registered short flag, and records boolean true (scan continuing) when it
is; demonstrated end to end on the clusters `-ab` (next char registered)
and `-ax` (next char unregistered). -/
theorem c6_short_cluster_conflict_capture :
    (∀ (shorts : List MCParse) (s : Str) (args : List Str) (idx idc : Nat)
        (short : MCParse) (st : MCState),
      idc + 1 < s.length → short.greedy = false →
      mcShortBody shorts s args idx idc short st =
        (if shorts.any (fun si => si.flag == [s.getD (idc + 1) ' ']) then
          { st with m := (mcSet (mcSet st.m short.key (.str (s.drop (idc + 1))))
              short.key (.bool true)) }
        else
          { st with m := mcSet st.m short.key (.str (s.drop (idc + 1))) })) ∧
    (mcShortToken mcShortsDemo [cs "-ab"] 0 [] false).m =
      [(cs "alpha", .bool true), (cs "beta", .bool true)] ∧
    (mcShortToken mcShortsDemo [cs "-ax"] 0 [] false).m =
      [(cs "alpha", .str (cs "x"))] := by
  refine ⟨?_, rfl, rfl⟩
  intro shorts s args idx idc short st h hg
  have hne : ¬(idc = s.length - 1) := by omega
  unfold mcShortBody
  rw [if_neg hne, hg]
  by_cases hany : shorts.any (fun si => si.flag == [s.getD (idc + 1) ' ']) = true
  · simp [hany]
  · simp [hany]

/-- Rest of the input after the first unescaped newline (consumed), or the
empty rest at end of input: the extent of the regex alternatives
`//[^\n]*(?:\n|$)` and `#[^\n]*(?:\n|$)` after their marker. -/
def scanLine : Str → Str
  | [] => []
  | c :: t => if c = '\n' then t else scanLine t

/-- Rest of the input after the first `*/`, when one exists: the regex
alternative `/\*[^*]*\*+(?:[^/*][^*]*\*+)*/` matches the shortest block
ending at the first star-slash after the opener, and fails when the block
is unterminated. -/
def scanBlock : Str → Option Str
  | [] => none
  | c :: t => if c = '*' ∧ t.head? = some '/' then some t.tail else scanBlock t

/-- A complete quoted literal after its opening quote `q`: the consumed
token (body with escape pairs kept verbatim, including the closing quote)
and the rest, or failure when the literal is unterminated — the regex
alternative `"[^"\\]*(?:\\[\S\s][^"\\]*)*"` and its single-quote twin. -/
def scanStr (q : Char) : Str → Option (Str × Str)
  | [] => none
  | [c] => if c = q then some ([c], []) else none
  | c :: e :: t' =>
      if c = q then some ([c], e :: t')
      else if c = '\\' then
        match scanStr q t' with
        | some (tok, rest) => some (c :: e :: tok, rest)
        | none => none
      else
        match scanStr q (e :: t') with
        | some (tok, rest) => some (c :: tok, rest)
        | none => none

/-- The run `[^/"'\\]*` continuing the catch-all alternative
`[\S\s][^/"'\\]*`: maximal prefix free of slash, quotes and backslash,
plus the rest. -/
def scanPlain : Str → Str × Str
  | [] => ([], [])
  | c :: t =>
      if c = '/' ∨ c = '"' ∨ c = '\'' ∨ c = '\\' then ([], c :: t)
      else
        match scanPlain t with
        | (r, rest) => (c :: r, rest)

theorem scanLine_le (s : Str) : (scanLine s).length ≤ s.length := by
  induction s with
  | nil => simp [scanLine]
  | cons c t ih =>
      simp only [scanLine]
      split
      · simp
      · exact le_trans ih (by simp)

theorem scanBlock_le (s r : Str) (h : scanBlock s = some r) :
    r.length < s.length := by
  induction s generalizing r with
  | nil => simp [scanBlock] at h
  | cons c t ih =>
      simp only [scanBlock] at h
      split at h
      · cases h
        cases t with
        | nil => simp [List.tail]
        | cons d t' =>
            simp only [List.tail, List.length_cons]
            omega
      · have := ih r h
        simp only [List.length_cons]
        omega

theorem scanStr_le (q : Char) : ∀ (s tok r : Str),
    scanStr q s = some (tok, r) → r.length < s.length
  | [], tok, r, h => by simp [scanStr] at h
  | [c], tok, r, h => by
      simp only [scanStr] at h
      split at h
      · cases h
        simp
      · simp at h
  | c :: e :: t', tok, r, h => by
      simp only [scanStr] at h
      split at h
      · cases h
        simp only [List.length_cons]
        omega
      · split at h
        · cases he : scanStr q t' with
          | none => rw [he] at h; simp at h
          | some p =>
              obtain ⟨tok', r'⟩ := p
              rw [he] at h
              simp only [Option.some.injEq, Prod.mk.injEq] at h
              obtain ⟨h1, h2⟩ := h
              subst h2
              have hlen := scanStr_le q t' tok' r' he
              simp only [List.length_cons]
              omega
        · cases he : scanStr q (e :: t') with
          | none => rw [he] at h; simp at h
          | some p =>
              obtain ⟨tok', r'⟩ := p
              rw [he] at h
              simp only [Option.some.injEq, Prod.mk.injEq] at h
              obtain ⟨h1, h2⟩ := h
              subst h2
              have hlen := scanStr_le q (e :: t') tok' r' he
              simp only [List.length_cons] at hlen ⊢
              omega
termination_by s _ _ _ => s.length
decreasing_by
  all_goals simp only [List.length_cons]
  all_goals omega

theorem scanPlain_le (s : Str) : (scanPlain s).2.length <= s.length := by
  induction s with
  | nil => simp [scanPlain]
  | cons c t ih =>
      simp only [scanPlain]
      split
      · simp
      · cases hp : scanPlain t with
        | mk r rest =>
            rw [hp] at ih
            simp only [List.length_cons] at ih ⊢
            omega

theorem scanPlain_le_of_eq (s r rest : Str) (h : scanPlain s = (r, rest)) :
    rest.length <= s.length := by
  have h1 := scanPlain_le s
  rw [h] at h1
  exact h1

/-- The comment filter `Config.comment` (config.go:251-254,
gonf.go:312-315, part_007:258-261): `regexp.ReplaceAll` with `$1` under
Go's leftmost-first semantics.  Every position starts some alternative, so
the scan proceeds token by token: block, line and `#` comments are
dropped; complete quoted literals are kept whole (protecting comment
markers inside them); otherwise one character plus its `[^/"'\\]*` run is
kept verbatim. -/
def commentFilter : Str → Str
  | [] => []
  | c :: t =>
      if c = '/' ∧ t.head? = some '*' then
        match hB : scanBlock t.tail with
        | some rest => commentFilter rest
        | none =>
            match hP : scanPlain t with
            | (r, rest) => c :: r ++ commentFilter rest
      else if c = '/' ∧ t.head? = some '/' then commentFilter (scanLine t.tail)
      else if c = '#' then commentFilter (scanLine t)
      else if c = '"' then
        match hS : scanStr '"' t with
        | some (tok, rest) => c :: tok ++ commentFilter rest
        | none =>
            match hP : scanPlain t with
            | (r, rest) => c :: r ++ commentFilter rest
      else if c = '\'' then
        match hS : scanStr '\'' t with
        | some (tok, rest) => c :: tok ++ commentFilter rest
        | none =>
            match hP : scanPlain t with
            | (r, rest) => c :: r ++ commentFilter rest
      else
        match hP : scanPlain t with
        | (r, rest) => c :: r ++ commentFilter rest
termination_by s => s.length
decreasing_by
  · have h1 := scanBlock_le _ _ hB
    simp only [List.length_tail, List.length_cons] at h1 ⊢
    omega
  · have h1 := scanPlain_le_of_eq _ _ _ hP
    simp only [List.length_cons]
    omega
  · refine lt_of_le_of_lt (scanLine_le _) ?_
    simp only [List.length_tail, List.length_cons]
    omega
  · refine lt_of_le_of_lt (scanLine_le _) ?_
    simp only [List.length_cons]
    omega
  · have h1 := scanStr_le _ _ _ _ hS
    simp only [List.length_cons]
    omega
  · have h1 := scanPlain_le_of_eq _ _ _ hP
    simp only [List.length_cons]
    omega
  · have h1 := scanStr_le _ _ _ _ hS
    simp only [List.length_cons]
    omega
  · have h1 := scanPlain_le_of_eq _ _ _ hP
    simp only [List.length_cons]
    omega
  · have h1 := scanPlain_le_of_eq _ _ _ hP
    simp only [List.length_cons]
    omega

/-- Lexical tokens of a comment-bearing JSON text: line comments
(`//body` up to and including a newline), block comments (`/*body*/`),
double- and single-quoted string literals, and plain runs. -/
inductive CTok where
  | lineC (body : Str)
  | blockC (body : Str)
  | dstr (body : Str)
  | sstr (body : Str)
  | run (s : Str)

/-- Concrete text of one token. -/
def CTok.render : CTok → Str
  | .lineC b => '/' :: '/' :: (b ++ ['\n'])
  | .blockC b => '/' :: '*' :: (b ++ ['*', '/'])
  | .dstr b => '"' :: (b ++ ['"'])
  | .sstr b => '\'' :: (b ++ ['\''])
  | .run s => s

/-- Whether the token is one of the two comment forms. -/
def CTok.isComment : CTok → Bool
  | .lineC _ => true
  | .blockC _ => true
  | .dstr _ => false
  | .sstr _ => false
  | .run _ => false

/-- Whether the token is a plain run. -/
def CTok.isRun : CTok → Bool
  | .run _ => true
  | _ => false

/-- Concatenated text of a token list. -/
def renderAll (ts : List CTok) : Str := (ts.map CTok.render).join

/-- Whether the string holds no newline. -/
def noNewline : Str → Bool
  | [] => true
  | c :: t => if c = '\n' then false else noNewline t

/-- Whether the string holds the closing sequence star-slash. -/
def containsStarSlash : Str → Bool
  | [] => false
  | c :: t => if c = '*' ∧ t.head? = some '/' then true else containsStarSlash t

/-- Whether the string is a valid `q`-quoted literal body: no unescaped
closing quote or backslash, every backslash escaping one following
character (which may itself be the quote). -/
def okStrBody (q : Char) : Str → Bool
  | [] => true
  | [c] => if c = q ∨ c = '\\' then false else true
  | c :: e :: t =>
      if c = q then false
      else if c = '\\' then okStrBody q t
      else okStrBody q (e :: t)

/-- Whether the character belongs in a plain run: not a slash, quote,
backslash or hash, so it can neither start nor continue into a comment or
literal. -/
def plainChar (c : Char) : Bool :=
  if c = '/' ∨ c = '"' ∨ c = '\'' ∨ c = '\\' ∨ c = '#' then false else true

/-- Whether every character of the string is a plain-run character. -/
def allPlain : Str → Bool
  | [] => true
  | c :: t => plainChar c && allPlain t

/-- Well-formedness of one token: comment bodies free of their own
terminator, literal bodies escaping correctly, runs non-empty and plain. -/
def CTok.wfB : CTok → Bool
  | .lineC b => noNewline b
  | .blockC b => !containsStarSlash b
  | .dstr b => okStrBody '"' b
  | .sstr b => okStrBody '\'' b
  | .run s => !s.isEmpty && allPlain s

/-- No two plain runs are adjacent (adjacent runs would merge into one). -/
def noAdjRuns : List CTok → Bool
  | [] => true
  | [_] => true
  | t₀ :: t₁ :: rest => !(t₀.isRun && t₁.isRun) && noAdjRuns (t₁ :: rest)

theorem scanLine_append (b x : Str) (hb : noNewline b = true) :
    scanLine (b ++ '\n' :: x) = x := by
  induction b with
  | nil => simp [scanLine]
  | cons c b' ih =>
      simp only [noNewline] at hb
      split at hb
      · exact absurd hb (by simp)
      · rename_i hc
        simp only [List.cons_append, scanLine, if_neg hc]
        exact ih hb

theorem scanBlock_append (b x : Str) (hb : containsStarSlash b = false) :
    scanBlock (b ++ '*' :: '/' :: x) = some x := by
  induction b with
  | nil => simp [scanBlock]
  | cons c b' ih =>
      simp only [containsStarSlash] at hb
      split at hb
      · exact absurd hb (by simp)
      · rename_i hc
        have hneg : ¬(c = '*' ∧ (b' ++ '*' :: '/' :: x).head? = some '/') := by
          rintro ⟨h1, h2⟩
          cases b' with
          | nil => simp at h2
          | cons d b'' => exact hc ⟨h1, by simpa using h2⟩
        simp only [List.cons_append, List.append_eq, scanBlock]
        rw [if_neg hneg]
        exact ih hb

theorem scanStr_append (q : Char) : ∀ (b x : Str), okStrBody q b = true →
    scanStr q (b ++ q :: x) = some (b ++ [q], x)
  | [], x, _ => by cases x <;> simp [scanStr]
  | [c], x, hb => by
      simp only [okStrBody] at hb
      split at hb
      · exact absurd hb (by simp)
      · rename_i hc
        push_neg at hc
        simp only [List.cons_append, List.nil_append, scanStr,
          if_neg hc.1, if_neg hc.2]
        cases x <;> simp [scanStr]
  | c :: e :: b', x, hb => by
      simp only [okStrBody] at hb
      split at hb
      · exact absurd hb (by simp)
      · split at hb
        · rename_i hcq hcb
          have ih := scanStr_append q b' x hb
          simp only [List.cons_append, List.append_eq, scanStr, if_neg hcq,
            if_pos hcb, ih]
        · rename_i hcq hcb
          have ih := scanStr_append q (e :: b') x hb
          simp only [List.cons_append, List.append_eq] at ih ⊢
          simp only [scanStr, if_neg hcq, if_neg hcb, ih]
termination_by b _ _ => b.length
decreasing_by
  all_goals simp only [List.length_cons]
  all_goals omega

theorem scanPlain_append : ∀ (p x : Str), allPlain p = true →
    (x = [] ∨ x.head? = some '/' ∨ x.head? = some '"' ∨ x.head? = some '\'') →
    scanPlain (p ++ x) = (p, x)
  | [], x, _, hx => by
      rcases hx with rfl | h | h | h
      · simp [scanPlain]
      · cases x with
        | nil => simp at h
        | cons c t =>
            simp only [List.head?_cons, Option.some.injEq] at h
            subst h
            simp [scanPlain]
      · cases x with
        | nil => simp at h
        | cons c t =>
            simp only [List.head?_cons, Option.some.injEq] at h
            subst h
            simp [scanPlain]
      · cases x with
        | nil => simp at h
        | cons c t =>
            simp only [List.head?_cons, Option.some.injEq] at h
            subst h
            simp [scanPlain]
  | c :: p', x, hp, hx => by
      simp only [allPlain, Bool.and_eq_true] at hp
      have hstop : ¬(c = '/' ∨ c = '"' ∨ c = '\'' ∨ c = '\\') := by
        intro hb
        have : (c = '/' ∨ c = '"' ∨ c = '\'' ∨ c = '\\' ∨ c = '#') := by tauto
        simp [plainChar, this] at hp
      have ih := scanPlain_append p' x hp.2 hx
      simp only [List.cons_append, List.append_eq, scanPlain, if_neg hstop, ih]

theorem noAdjRuns_tail (t₀ : CTok) (tl : List CTok)
    (h : noAdjRuns (t₀ :: tl) = true) : noAdjRuns tl = true := by
  cases tl with
  | nil => rfl
  | cons t₁ tl' =>
      simp only [noAdjRuns, Bool.and_eq_true] at h
      exact h.2

theorem renderAll_cons (t : CTok) (ts : List CTok) :
    renderAll (t :: ts) = t.render ++ renderAll ts := by
  simp [renderAll]

theorem renderAll_stop (tl : List CTok)
    (h : ∀ t₁ ∈ tl.head?, t₁.isRun = false) :
    renderAll tl = [] ∨ (renderAll tl).head? = some '/' ∨
      (renderAll tl).head? = some '"' ∨ (renderAll tl).head? = some '\'' := by
  cases tl with
  | nil => left; rfl
  | cons t₀ tl' =>
      right
      have h0 : t₀.isRun = false := h t₀ (by simp)
      cases t₀ with
      | lineC b => left; simp [renderAll_cons, CTok.render]
      | blockC b => left; simp [renderAll_cons, CTok.render]
      | dstr b => right; left; simp [renderAll_cons, CTok.render]
      | sstr b => right; right; simp [renderAll_cons, CTok.render]
      | run s => simp [CTok.isRun] at h0

theorem commentFilter_line (b x : Str) (hb : noNewline b = true) :
    commentFilter ('/' :: '/' :: (b ++ '\n' :: x)) = commentFilter x := by
  simp only [commentFilter, List.head?_cons, List.tail_cons]
  rw [if_neg (by simp), if_pos (by simp), scanLine_append b x hb]

theorem commentFilter_block (b x : Str) (hb : containsStarSlash b = false) :
    commentFilter ('/' :: '*' :: (b ++ '*' :: '/' :: x)) = commentFilter x := by
  simp only [commentFilter, List.head?_cons, List.tail_cons]
  rw [if_pos (by simp), scanBlock_append b x hb]

theorem commentFilter_dstr (b x : Str) (hb : okStrBody '"' b = true) :
    commentFilter ('"' :: (b ++ '"' :: x)) =
      '"' :: (b ++ ['"']) ++ commentFilter x := by
  simp only [commentFilter]
  rw [if_neg (by simp), if_neg (by simp), if_neg (by simp), if_pos (by simp),
    scanStr_append '"' b x hb]

theorem commentFilter_sstr (b x : Str) (hb : okStrBody '\'' b = true) :
    commentFilter ('\'' :: (b ++ '\'' :: x)) =
      '\'' :: (b ++ ['\'']) ++ commentFilter x := by
  simp only [commentFilter]
  rw [if_neg (by simp), if_neg (by simp), if_neg (by simp), if_neg (by simp),
    if_pos (by simp), scanStr_append '\'' b x hb]

theorem commentFilter_plain (c : Char) (p x : Str) (hc : plainChar c = true)
    (hp : allPlain p = true)
    (hx : x = [] ∨ x.head? = some '/' ∨ x.head? = some '"' ∨ x.head? = some '\'') :
    commentFilter (c :: (p ++ x)) = c :: p ++ commentFilter x := by
  have hbig : ¬(c = '/' ∨ c = '"' ∨ c = '\'' ∨ c = '\\' ∨ c = '#') := by
    intro hb
    simp [plainChar, hb] at hc
  push_neg at hbig
  obtain ⟨h1, h2, h3, h4, h5⟩ := hbig
  simp only [commentFilter]
  rw [if_neg (by rintro ⟨h, -⟩; exact h1 h),
    if_neg (by rintro ⟨h, -⟩; exact h1 h), if_neg h5, if_neg h2, if_neg h3,
    scanPlain_append p x hp hx]

/-- Kept tokens of a list. -/
def keptToks (ts : List CTok) : List CTok := ts.filter (fun t => !t.isComment)

theorem commentFilter_tokens : ∀ (ts : List CTok),
    ts.all CTok.wfB = true → noAdjRuns ts = true →
    commentFilter (renderAll ts) = renderAll (keptToks ts)
  | [], _, _ => by simp [commentFilter, renderAll, keptToks]
  | .lineC b :: tl, hwf, hadj => by
      simp only [List.all_cons, Bool.and_eq_true, CTok.wfB] at hwf
      have ih := commentFilter_tokens tl hwf.2 (noAdjRuns_tail _ _ hadj)
      have hr : renderAll (.lineC b :: tl) =
          '/' :: '/' :: (b ++ '\n' :: renderAll tl) := by
        simp [renderAll_cons, CTok.render]
      rw [hr, commentFilter_line b _ hwf.1, ih]
      simp [keptToks, List.filter, CTok.isComment]
  | .blockC b :: tl, hwf, hadj => by
      simp only [List.all_cons, Bool.and_eq_true, CTok.wfB,
        Bool.not_eq_true'] at hwf
      have ih := commentFilter_tokens tl hwf.2 (noAdjRuns_tail _ _ hadj)
      have hr : renderAll (.blockC b :: tl) =
          '/' :: '*' :: (b ++ '*' :: '/' :: renderAll tl) := by
        simp [renderAll_cons, CTok.render]
      rw [hr, commentFilter_block b _ hwf.1, ih]
      simp [keptToks, List.filter, CTok.isComment]
  | .dstr b :: tl, hwf, hadj => by
      simp only [List.all_cons, Bool.and_eq_true, CTok.wfB] at hwf
      have ih := commentFilter_tokens tl hwf.2 (noAdjRuns_tail _ _ hadj)
      have hr : renderAll (.dstr b :: tl) =
          '"' :: (b ++ '"' :: renderAll tl) := by
        simp [renderAll_cons, CTok.render]
      rw [hr, commentFilter_dstr b _ hwf.1, ih]
      simp [keptToks, List.filter, CTok.isComment, renderAll_cons, CTok.render]
  | .sstr b :: tl, hwf, hadj => by
      simp only [List.all_cons, Bool.and_eq_true, CTok.wfB] at hwf
      have ih := commentFilter_tokens tl hwf.2 (noAdjRuns_tail _ _ hadj)
      have hr : renderAll (.sstr b :: tl) =
          '\'' :: (b ++ '\'' :: renderAll tl) := by
        simp [renderAll_cons, CTok.render]
      rw [hr, commentFilter_sstr b _ hwf.1, ih]
      simp [keptToks, List.filter, CTok.isComment, renderAll_cons, CTok.render]
  | .run s :: tl, hwf, hadj => by
      simp only [List.all_cons, Bool.and_eq_true, CTok.wfB,
        Bool.not_eq_true'] at hwf
      obtain ⟨⟨hne, hplain⟩, hall⟩ := hwf
      have ih := commentFilter_tokens tl hall (noAdjRuns_tail _ _ hadj)
      cases s with
      | nil => simp at hne
      | cons c s' =>
          simp only [allPlain, Bool.and_eq_true] at hplain
          have hx : renderAll tl = [] ∨ (renderAll tl).head? = some '/' ∨
              (renderAll tl).head? = some '"' ∨
              (renderAll tl).head? = some '\'' := by
            refine renderAll_stop tl ?_
            intro t₁ ht₁
            cases tl with
            | nil => simp at ht₁
            | cons u tl' =>
                simp only [List.head?_cons, Option.mem_def,
                  Option.some.injEq] at ht₁
                subst ht₁
                simp only [noAdjRuns, Bool.and_eq_true, Bool.not_eq_true',
                  Bool.and_eq_false_iff] at hadj
                rcases hadj.1 with h | h
                · simp [CTok.isRun] at h
                · exact h
          have hr : renderAll (.run (c :: s') :: tl) =
              c :: (s' ++ renderAll tl) := by
            simp [renderAll_cons, CTok.render]
          rw [hr, commentFilter_plain c s' _ hplain.1 hplain.2 hx, ih]
          simp [keptToks, List.filter, CTok.isComment, renderAll_cons,
            CTok.render]

/-- C4: the comment filter removes line and block comments occurring
outside string literals and copies quoted literals (escaped quotes
included) verbatim — stated over every well-formed token sequence — and in
particular the input `\x7b"key": "http://x"\x7d // trailing` filters to
`\x7b"key": "http://x"\x7d ` with the literal untouched, which is the JSON
of a map binding `key` to the unmodified string `http://x`. -/
theorem c4_comment_stripping :
    (∀ (ts : List CTok), ts.all CTok.wfB = true → noAdjRuns ts = true →
      commentFilter (renderAll ts) = renderAll (keptToks ts)) ∧
    commentFilter (cs "\x7b\"key\": \"http://x\"\x7d // trailing") =
      cs "\x7b\"key\": \"http://x\"\x7d " := by
  constructor
  · exact commentFilter_tokens
  · simp [commentFilter, cs, scanBlock, scanLine, scanStr, scanPlain]

/-- Token sequence for the C4 witness: a plain run, a block comment, a
double-quoted literal holding slashes, a line comment, and an escaped
quote inside a literal. -/
def c4Toks : List CTok :=
  [.run (cs "x: "), .blockC (cs " c "), .dstr (cs "http://a"),
   .lineC (cs " tail"), .sstr (cs "it\\'s //ok")]

theorem c4_comment_stripping_witness :
    (c4Toks.all CTok.wfB = true ∧ noAdjRuns c4Toks = true) ∧
      commentFilter (renderAll c4Toks) = renderAll (keptToks c4Toks) :=
  ⟨⟨by decide, by decide⟩,
    c4_comment_stripping.1 c4Toks (by decide) (by decide)⟩

/-- Go `strconv.ParseBool`: the twelve accepted spellings, anything else
is an error. -/
def goParseBool (s : Str) : Option Bool :=
  if s = cs "1" ∨ s = cs "t" ∨ s = cs "T" ∨ s = cs "true" ∨ s = cs "TRUE" ∨
      s = cs "True" then some true
  else if s = cs "0" ∨ s = cs "f" ∨ s = cs "F" ∨ s = cs "false" ∨
      s = cs "FALSE" ∨ s = cs "False" then some false
  else none

/-- Leading decimal digits of a string, as digit values plus the rest. -/
def spanDigits : Str → List Nat × Str
  | [] => ([], [])
  | c :: rest =>
      if '0' ≤ c ∧ c ≤ '9' then
        match spanDigits rest with
        | (ds, r) => ((c.toNat - 48) :: ds, r)
      else ([], c :: rest)

/-- Value of a digit list read most-significant first. -/
def natOfDigits (ds : List Nat) : Nat := ds.foldl (fun a d => 10 * a + d) 0

/-- Optional exponent part after a decimal mantissa of value
`mant / 10^fracLen`; the whole remaining input must be consumed. -/
def parseExpPart (mant fracLen : Nat) (r : Str) : Option Rat :=
  let base : Rat := (mant : Rat) / ((10 : Rat) ^ fracLen)
  match r with
  | [] => some base
  | e :: rest =>
      if e = 'e' ∨ e = 'E' then
        let p :=
          match rest with
          | '+' :: t => (false, t)
          | '-' :: t => (true, t)
          | t => (false, t)
        match spanDigits p.2 with
        | ([], _) => none
        | (ed, r3) =>
            if r3 = [] then
              some (if p.1 then base / (10 : Rat) ^ natOfDigits ed
                else base * (10 : Rat) ^ natOfDigits ed)
            else none
      else none

/-- Decimal mantissa (digits, optional dot, digits — at least one digit)
followed by the optional exponent. -/
def parseDecMantissa (s : Str) : Option Rat :=
  match spanDigits s with
  | (d1, r1) =>
      match r1 with
      | '.' :: rr =>
          match spanDigits rr with
          | (d2, r2) =>
              if d1 = [] ∧ d2 = [] then none
              else parseExpPart (natOfDigits (d1 ++ d2)) d2.length r2
      | _ =>
          if d1 = [] then none
          else parseExpPart (natOfDigits d1) 0 r1

/-- Go `strconv.ParseFloat(s, 64)` on its decimal fragment: signed
decimals with optional fraction and exponent, signed `inf`/`infinity`, and
unsigned `nan` (all case-insensitive).  Finite values carry the exact
rational the literal denotes; float64 rounding, the hexadecimal float
forms, digit-separating underscores, and the out-of-range error are
outside the model. -/
def goParseFloat (s : Str) : Option GoNum :=
  if s.map Char.toLower = cs "nan" then some .nan
  else
    let p :=
      match s with
      | '+' :: r => (false, r)
      | '-' :: r => (true, r)
      | r => (false, r)
    if p.2.map Char.toLower = cs "inf" ∨ p.2.map Char.toLower = cs "infinity" then
      some (.inf p.1)
    else
      match parseDecMantissa p.2 with
      | some q => some (.fin (if p.1 then -q else q))
      | none => none

/-- Reflected Go field kinds relevant to part_007's caster: booleans, the
numeric kinds (collapsed, exactly the set `isNumeric` accepts,
part_007:53-59), strings, structs with their reflected fields
`(name, json tag, anonymous, type)`, and everything else. -/
inductive GoType where
  | tbool : GoType
  | tnum : GoType
  | tstring : GoType
  | tother : GoType
  | tstruct : List (Str × Str × Bool × GoType) → GoType

mutual

/-- `Config.convert` of part_007 (part_007:61-80): a string destined for a
boolean or numeric field is replaced by its parsed value when parsing
succeeds and returned unchanged otherwise; a map destined for a struct
field is cast recursively; everything else passes through. -/
def convert : GoType → JVal → JVal
  | .tbool, .str s =>
      (match goParseBool s with
        | some r => .bool r
        | none => .str s)
  | .tnum, .str s =>
      (match goParseFloat s with
        | some r => .num r
        | none => .str s)
  | .tstruct flds, .obj p => .obj (castM flds p []).1
  | _, v => v
termination_by t v => (sizeOf t, 3, 0)

/-- First pass of part_007's cast key loop (part_007:88-94): fields whose
json tag equals the key (a `-` tag never matches). -/
def tagPass : List (Str × Str × Bool × GoType) → Str → JVal → JVal → Bool →
    JVal × Bool
  | [], _, _, acc, hit => (acc, hit)
  | (_, tag, _, t) :: rest, k, v, acc, hit =>
      if tag = cs "-" ∨ tag ≠ k then tagPass rest k v acc hit
      else tagPass rest k v (convert t v) true
termination_by flds _ _ _ _ => (sizeOf flds, 0, 0)

/-- Second pass (part_007:98-104): fields whose Go name equals the key. -/
def namePass : List (Str × Str × Bool × GoType) → Str → JVal → JVal → Bool →
    JVal × Bool
  | [], _, _, acc, hit => (acc, hit)
  | (n, _, _, t) :: rest, k, v, acc, hit =>
      if n ≠ k then namePass rest k v acc hit
      else namePass rest k v (convert t v) true
termination_by flds _ _ _ _ => (sizeOf flds, 0, 0)

/-- Key loop of part_007's cast (part_007:84-105): every map entry not yet
discarded is offered to the tag pass and then the name pass; a hit records
the key as discarded and stores the converted value. -/
def keyLoop : List (Str × Str × Bool × GoType) → RawMap → List Str →
    RawMap × List Str
  | _, [], d => ([], d)
  | flds, (k, v) :: rest, d =>
      if k ∈ d then
        match keyLoop flds rest d with
        | (r, d') => ((k, v) :: r, d')
      else
        match tagPass flds k v v false with
        | (v1, true) =>
            (match keyLoop flds rest (k :: d) with
              | (r, d') => ((k, v1) :: r, d'))
        | (_, false) =>
            match namePass flds k v v false with
            | (v2, true) =>
                (match keyLoop flds rest (k :: d) with
                  | (r, d') => ((k, v2) :: r, d'))
            | (_, false) =>
                match keyLoop flds rest d with
                | (r, d') => ((k, v) :: r, d')
termination_by flds m _ => (sizeOf flds, 1, sizeOf m)

/-- Anonymous-embedding pass (part_007:106-111): untagged anonymous struct
fields are cast against the same map while undiscarded keys remain. -/
def anonLoop : List (Str × Str × Bool × GoType) → RawMap → List Str →
    RawMap × List Str
  | [], m, d => (m, d)
  | (_, tag, anon, t) :: rest, m, d =>
      match t with
      | .tstruct sub =>
          if tag = [] ∧ anon = true ∧ d.length < m.length then
            match castM sub m d with
            | (m', d') => anonLoop rest m' d'
          else anonLoop rest m d
      | _ => anonLoop rest m d
termination_by flds _ _ => (sizeOf flds, 2, 0)

/-- `Config.cast` of part_007 (part_007:82-112): the key loop followed by
the anonymous-embedding pass, threading the discard set. -/
def castM (flds : List (Str × Str × Bool × GoType)) (m : RawMap)
    (d : List Str) : RawMap × List Str :=
  match keyLoop flds m d with
  | (m', d') => anonLoop flds m' d'
termination_by (sizeOf flds, 2, 1)

end

/-- C7: for a target field of boolean or numeric type and a matching key
holding a string, the caster replaces the string by the parsed typed value
when it parses, and leaves the entry in the map unchanged (neither zeroed
nor dropped) when it does not. -/
theorem c7_cast_parse_or_leave (fname tag s : Str) (htag : tag ≠ cs "-") :
    (castM [(fname, tag, false, .tbool)] [(tag, .str s)] []).1 =
      [(tag, match goParseBool s with
             | some b => JVal.bool b
             | none => JVal.str s)] ∧
    (castM [(fname, tag, false, .tnum)] [(tag, .str s)] []).1 =
      [(tag, match goParseFloat s with
             | some r => JVal.num r
             | none => JVal.str s)] := by
  have hnd : ¬(tag = cs "-" ∨ ¬tag = tag) := by
    rintro (h | h)
    · exact htag h
    · exact h rfl
  constructor
  · simp only [castM, keyLoop, tagPass, anonLoop, convert, List.not_mem_nil,
      if_false, if_neg hnd, Bool.false_eq_true, and_false, if_false]
  · simp only [castM, keyLoop, tagPass, anonLoop, convert, List.not_mem_nil,
      if_false, if_neg hnd, Bool.false_eq_true, and_false, if_false]

theorem c7_cast_parse_or_leave_witness :
    (cs "ready" ≠ cs "-") ∧
      (castM [(cs "Ready", cs "ready", false, .tbool)]
          [(cs "ready", .str (cs "maybe"))] []).1 =
        [(cs "ready", match goParseBool (cs "maybe") with
                      | some b => JVal.bool b
                      | none => JVal.str (cs "maybe"))] :=
  ⟨by decide,
    (c7_cast_parse_or_leave (cs "Ready") (cs "ready") (cs "maybe")
        (by decide)).1⟩

theorem c6_short_cluster_conflict_capture_witness :
    (0 + 1 < (cs "ax").length ∧ (false : Bool) = false) ∧
      mcShortBody mcShortsDemo (cs "ax") [cs "-ax"] 0 0
          ⟨false, cs "a", cs "alpha"⟩ ⟨[], false, false, false⟩ =
        (if mcShortsDemo.any
            (fun si => si.flag == [(cs "ax").getD (0 + 1) ' ']) then
          { MCState.mk [] false false false with
            m := (mcSet (mcSet [] (cs "alpha") (.str ((cs "ax").drop (0 + 1))))
              (cs "alpha") (.bool true)) }
        else
          { MCState.mk [] false false false with
            m := mcSet [] (cs "alpha") (.str ((cs "ax").drop (0 + 1))) }) :=
  ⟨⟨by decide, rfl⟩,
    c6_short_cluster_conflict_capture.1 mcShortsDemo (cs "ax") [cs "-ax"] 0 0
      ⟨false, cs "a", cs "alpha"⟩ ⟨[], false, false, false⟩ (by decide) rfl⟩

end Gonf
